import Mathlib

/-! Parabolic inlet velocity profile (`examples/basic_udf.c`).

A shallow embedding of the user-defined function `parabolic_velocity` and the
properties of the profile it writes.

The C file is compiled against the solver header `udf.h`, which supplies the
scalar type `real`, the dimension `ND_ND`, the face loop, the centroid lookup
and the profile storage.  None of these is defined by the C file, so the
embedding takes them as parameters:

* `real` is any linearly ordered field (arithmetic is exact, there is no
  rounding), and `sqrt : real → real` is passed explicitly.  The theorems are
  stated for `ℝ` with `Real.sqrt` whenever they need a property of the square
  root, and for an arbitrary field and an arbitrary `sqrt` when they do not.
* `Host` packages the mesh data of the solver: the dimension, the faces the
  loop visits for a thread, and the centroid of each face.
* `Profile` is the profile storage, one slot per thread, face and position.

The C type `real` is a floating-point type.  Where a property depends on the
rounding, the program is also embedded with the rounding made explicit
(`parabolic_velocity_fl`, with a rounding operator `fl` applied after every
operation), and `binary64` is the rounding of the double precision build.
-/

namespace BasicUdf

/-! ## Data model -/

/-- Face index type of the solver header (`face_t f;`). -/
abbrev face_t := Int

/-- Profile storage addressed by `F_PROFILE(f, thread, position)`: one scalar
slot for every thread, face index and position index. -/
abbrev Profile (real Thread : Type) := Thread → face_t → Int → real

/-- Mesh data owned by the solver and read by the function.

* `ND_ND` is the number of space dimensions (`real x[ND_ND]`); the function
  reads `x[1]`, so at least two components exist.
* `faces thread` lists the face indices visited by
  `begin_f_loop(f, thread) ... end_f_loop(f, thread)`, in order.
* `F_CENTROID f thread` is the vector stored into `x` by
  `F_CENTROID(x, f, thread)`. -/
structure Host (real Thread : Type) where
  ND_ND : Nat
  ND_ND_gt : 1 < ND_ND
  faces : Thread → List face_t
  F_CENTROID : face_t → Thread → Fin ND_ND → real

section Program

variable {real Thread : Type} [LinearOrderedField real] [DecidableEq Thread]

/-- Maximum velocity: `#define VMAX 1.0`. -/
def VMAX : real := 1.0

/-- Pipe radius: `#define RADIUS 0.05`. -/
def RADIUS : real := 0.05

/-- Assignment `F_PROFILE(f, thread, position) = v`: the addressed slot takes
the value `v`, every other slot keeps its value. -/
def F_PROFILE_set (st : Profile real Thread) (f : face_t) (thread : Thread)
    (position : Int) (v : real) : Profile real Thread :=
  fun t g i => if t = thread ∧ g = f ∧ i = position then v else st t g i

/-- The y coordinate read for a face: `F_CENTROID(x, f, thread); y = x[1];`. -/
def centroid_y (H : Host real Thread) (thread : Thread) (f : face_t) : real :=
  let x := H.F_CENTROID f thread
  x ⟨1, H.ND_ND_gt⟩

/-- The radius `r = sqrt(y*y)` computed for a face. -/
def radius (sqrt : real → real) (H : Host real Thread) (thread : Thread)
    (f : face_t) : real :=
  let x := H.F_CENTROID f thread
  let y := x ⟨1, H.ND_ND_gt⟩
  sqrt (y * y)

/-- Body of the face loop, one iteration for the face `f`:
```
F_CENTROID(x, f, thread);
y = x[1];
r = sqrt(y*y);
if (r <= RADIUS)
    F_PROFILE(f, thread, position) = VMAX * (1.0 - (r*r)/(RADIUS*RADIUS));
else
    F_PROFILE(f, thread, position) = 0.0;
``` -/
def loop_body (sqrt : real → real) (H : Host real Thread) (thread : Thread)
    (position : Int) (st : Profile real Thread) (f : face_t) :
    Profile real Thread :=
  let x := H.F_CENTROID f thread
  let y := x ⟨1, H.ND_ND_gt⟩
  let r := sqrt (y * y)
  if r ≤ RADIUS then
    F_PROFILE_set st f thread position (VMAX * (1.0 - (r * r) / (RADIUS * RADIUS)))
  else
    F_PROFILE_set st f thread position 0.0

/-- The function `DEFINE_PROFILE(parabolic_velocity, thread, position)`: the
loop body is run once for every face the loop visits, in order, starting from
the profile storage `st`. -/
def parabolic_velocity (sqrt : real → real) (H : Host real Thread)
    (thread : Thread) (position : Int) (st : Profile real Thread) :
    Profile real Thread :=
  (H.faces thread).foldl (loop_body sqrt H thread position) st

/-- The right-hand side the loop body assigns, as a function of the y
coordinate of the centroid (both branches of the conditional). -/
def velocity (sqrt : real → real) (y : real) : real :=
  let r := sqrt (y * y)
  if r ≤ RADIUS then VMAX * (1.0 - (r * r) / (RADIUS * RADIUS)) else 0.0

/-- The assignments performed by one call, in order: for every face visited,
the slot written (`thread`, face, `position`) and the value written. -/
def assignments (sqrt : real → real) (H : Host real Thread) (thread : Thread)
    (position : Int) : List (Thread × face_t × Int × real) :=
  (H.faces thread).map fun f => (thread, f, position, velocity sqrt (centroid_y H thread f))

/-- Replays a list of assignments on a profile storage, first to last. -/
def replay (st : Profile real Thread) (ws : List (Thread × face_t × Int × real)) :
    Profile real Thread :=
  ws.foldl (fun s w => F_PROFILE_set s w.2.1 w.1 w.2.2.1 w.2.2.2) st

/-- The face loop with an arbitrary value function `v` of the y coordinate in
place of the conditional: every visited face gets `v y` in its slot.  Used to
compare the embedding built on `sqrt` with the ones built on `|y|` and on
`y * y`. -/
def parabolic_velocity_of (v : real → real) (H : Host real Thread)
    (thread : Thread) (position : Int) (st : Profile real Thread) :
    Profile real Thread :=
  (H.faces thread).foldl
    (fun s f => F_PROFILE_set s f thread position (v (centroid_y H thread f))) st

/-- Variant of `velocity` with the radius taken as the absolute value `|y|`
(stated from the claim, for comparison with `velocity`). -/
def velocity_abs (y : real) : real :=
  let r := |y|
  if r ≤ RADIUS then VMAX * (1.0 - (r * r) / (RADIUS * RADIUS)) else 0.0

/-- Variant of `velocity` that uses `y * y` directly and tests the band
`-RADIUS ≤ y ≤ RADIUS` (stated from the claim, for comparison with
`velocity`). -/
def velocity_sq (y : real) : real :=
  if -RADIUS ≤ y ∧ y ≤ RADIUS then VMAX * (1 - y ^ 2 / RADIUS ^ 2) else 0

/-- Formula of the specification, `profile(f) = r <= R ? Vmax * (1 - (r/R)^2) : 0`
(stated from the specification, for comparison with the code). -/
def spec_profile (Vmax R r : real) : real :=
  if r ≤ R then Vmax * (1 - (r / R) ^ 2) else 0

/-- Distance of a point from the pipe centerline, the x-axis through `y = 0`,
`z = 0` (stated from the specification, `distance_from_centerline`): the
Euclidean norm of the components other than `x[0]`, that is `sqrt(x[1]^2)` in
two dimensions and `sqrt(x[1]^2 + x[2]^2)` in three. -/
def distance_from_centerline (sqrt : real → real) {n : Nat} (x : Fin n → real) : real :=
  sqrt (∑ i : Fin n, if i.val = 0 then 0 else x i ^ 2)

/-- A two-dimensional sample mesh: one thread with the faces `0`, `1` and `2`,
whose centroids are `(0, 0.025)` (inside the pipe), `(0, 0.06)` (outside) and
`(0, -0.05)` (on the wall). -/
def sampleHost2D : Host real Unit where
  ND_ND := 2
  ND_ND_gt := by decide
  faces := fun _ => [0, 1, 2]
  F_CENTROID := fun f _ =>
    if f = 0 then ![0, 0.025] else if f = 1 then ![0, 0.06] else ![0, -0.05]

/-- A three-dimensional sample mesh: one thread with the single face `0`, whose
centroid is `(0, 0, 1)`: on the plane `y = 0`, at distance `1` from the x-axis. -/
def sampleHost3D : Host real Unit where
  ND_ND := 3
  ND_ND_gt := by decide
  faces := fun _ => [0]
  F_CENTROID := fun _ _ => ![0, 0, 1]

/-- Body of the face loop with the rounding of the scalar type made explicit.
The C type `real` is a floating-point type, so every constant and every
arithmetic result is rounded to it; `fl` is that rounding, applied to each
constant, product, quotient, difference and to the result of `sqrt`, in the
order the C expression evaluates them:
```
r = sqrt(y*y);
if (r <= RADIUS)
    F_PROFILE(f, thread, position) = VMAX * (1.0 - (r*r)/(RADIUS*RADIUS));
else
    F_PROFILE(f, thread, position) = 0.0;
```
With `fl` the identity this is `loop_body`. -/
def loop_body_fl (fl : real → real) (sqrt : real → real) (H : Host real Thread)
    (thread : Thread) (position : Int) (st : Profile real Thread) (f : face_t) :
    Profile real Thread :=
  let x := H.F_CENTROID f thread
  let y := x ⟨1, H.ND_ND_gt⟩
  let r := fl (sqrt (fl (y * y)))
  if r ≤ fl RADIUS then
    F_PROFILE_set st f thread position
      (fl (fl VMAX * fl (fl 1.0 - fl (fl (r * r) / fl (fl RADIUS * fl RADIUS)))))
  else
    F_PROFILE_set st f thread position (fl 0.0)

/-- The function `parabolic_velocity` with the rounding `fl` of the scalar type
made explicit: `loop_body_fl` is run once for every face the loop visits. -/
def parabolic_velocity_fl (fl : real → real) (sqrt : real → real) (H : Host real Thread)
    (thread : Thread) (position : Int) (st : Profile real Thread) :
    Profile real Thread :=
  (H.faces thread).foldl (loop_body_fl fl sqrt H thread position) st

/-- The right-hand side `loop_body_fl` assigns, as a function of the y
coordinate of the centroid. -/
def velocity_fl (fl : real → real) (sqrt : real → real) (y : real) : real :=
  let r := fl (sqrt (fl (y * y)))
  if r ≤ fl RADIUS then
    fl (fl VMAX * fl (fl 1.0 - fl (fl (r * r) / fl (fl RADIUS * fl RADIUS))))
  else fl 0.0

/-- A two-dimensional sample mesh near the centerline: one thread with the faces
`0` and `1`, whose centroids are `(0, 1 / 2^40)`, just off the centerline, and
`(0, 0)`, on it. -/
def sampleHostCenter : Host real Unit where
  ND_ND := 2
  ND_ND_gt := by decide
  faces := fun _ => [0, 1]
  F_CENTROID := fun f _ => if f = 0 then ![0, 1 / 2 ^ 40] else ![0, 0]

end Program

/-! ## Rounding of the scalar type

When the solver is built in double precision the C type `real` is `double`,
the IEEE 754 binary64 format, and every operation rounds its exact result to
the nearest value of the format, ties to the value with an even significand.
`binary64` is that rounding on the finite range: 53 significant bits, and a
spacing no finer than `2^-1074` (the subnormal numbers).  Results beyond the
largest finite value are not turned into infinities here; in
`parabolic_velocity` only `y*y` and its square root can be that large, the
comparison `r <= RADIUS` then fails for the infinite `r` of the C program as it
does for the large finite `r` of the embedding, and both store `0.0`. -/

section Rounding

variable {real : Type} [LinearOrderedField real] [FloorRing real]

/-- The integer nearest to `x`; half-way cases go to the even neighbour. -/
def round_half_even (x : real) : ℤ :=
  if Int.fract x < 1 / 2 then ⌊x⌋
  else if 1 / 2 < Int.fract x then ⌊x⌋ + 1
  else if ⌊x⌋ % 2 = 0 then ⌊x⌋ else ⌊x⌋ + 1

/-- Exponent of the spacing of the binary64 values around `x`: 52 below the
binary exponent of `x` (53 significant bits), and `-1074` at least. -/
def binary64_quantum (x : real) : ℤ :=
  max (Int.log 2 |x| - 52) (-1074)

/-- Rounding to binary64, to nearest with ties to even: the multiple of the
spacing `2 ^ binary64_quantum x` nearest to `x`. -/
def binary64 (x : real) : real :=
  (round_half_even (x / 2 ^ binary64_quantum x) : real) * 2 ^ binary64_quantum x

end Rounding

/-! ## Basic lemmas -/

section Lemmas

variable {real Thread : Type} [LinearOrderedField real] [DecidableEq Thread]

theorem VMAX_eq : (VMAX : real) = 1 := by
  unfold VMAX; norm_num

theorem RADIUS_eq : (RADIUS : real) = 1 / 20 := by
  unfold RADIUS; norm_num

theorem RADIUS_pos : (0 : real) < RADIUS := by
  rw [RADIUS_eq]; norm_num

theorem loop_body_eq (sqrt : real → real) (H : Host real Thread) (thread : Thread)
    (position : Int) (st : Profile real Thread) (f : face_t) :
    loop_body sqrt H thread position st f
      = F_PROFILE_set st f thread position (velocity sqrt (centroid_y H thread f)) := by
  unfold loop_body velocity centroid_y
  simp only
  split <;> rfl

theorem foldl_loop_body (sqrt : real → real) (H : Host real Thread) (thread : Thread)
    (position : Int) (l : List face_t) (st : Profile real Thread)
    (t : Thread) (g : face_t) (i : Int) :
    l.foldl (loop_body sqrt H thread position) st t g i
      = if t = thread ∧ g ∈ l ∧ i = position then velocity sqrt (centroid_y H thread g)
        else st t g i := by
  induction l generalizing st with
  | nil => simp
  | cons a l ih =>
    rw [List.foldl_cons, ih, loop_body_eq]
    unfold F_PROFILE_set
    by_cases ht : t = thread <;> by_cases hi : i = position <;> by_cases hg : g ∈ l <;>
      by_cases ha : g = a <;> simp [ht, hi, hg, ha]

/-- Closed form of the storage after one call. -/
theorem parabolic_velocity_apply (sqrt : real → real) (H : Host real Thread)
    (thread : Thread) (position : Int) (st : Profile real Thread)
    (t : Thread) (g : face_t) (i : Int) :
    parabolic_velocity sqrt H thread position st t g i
      = if t = thread ∧ g ∈ H.faces thread ∧ i = position
        then velocity sqrt (centroid_y H thread g) else st t g i :=
  foldl_loop_body sqrt H thread position (H.faces thread) st t g i

end Lemmas

theorem countP_assignments {real Thread : Type} [LinearOrderedField real]
    (sqrt : real → real) (H : Host real Thread)
    (thread : Thread) (position : Int) (g : face_t) :
    (assignments sqrt H thread position).countP (fun w => w.2.1 = g)
      = (H.faces thread).count g := by
  unfold assignments
  induction H.faces thread with
  | nil => simp
  | cons a l ih =>
    rw [List.map_cons, List.countP_cons, ih, List.count_cons]
    simp

/-! ## The profile over the real numbers -/

section RealProfile

/-- Over `ℝ` the assigned value is the parabola on the band `|y| ≤ RADIUS` and
zero outside of it. -/
theorem velocity_real (y : ℝ) :
    velocity Real.sqrt y
      = if |y| ≤ RADIUS then VMAX * (1 - y ^ 2 / RADIUS ^ 2) else 0 := by
  unfold velocity
  simp only [Real.sqrt_mul_self_eq_abs, abs_mul_abs_self]
  norm_num [sq]

theorem velocity_real_inside {y : ℝ} (h : |y| ≤ RADIUS) :
    velocity Real.sqrt y = 1 - 400 * |y| ^ 2 := by
  rw [velocity_real, if_pos h, VMAX_eq, RADIUS_eq, sq_abs]
  ring

theorem velocity_real_outside {y : ℝ} (h : RADIUS < |y|) :
    velocity Real.sqrt y = 0 := by
  rw [velocity_real, if_neg (not_le.mpr h)]

theorem sq_abs_le_of_inside {y : ℝ} (h : |y| ≤ RADIUS) : 400 * |y| ^ 2 ≤ 1 := by
  rw [RADIUS_eq] at h
  have h0 : 0 ≤ |y| := abs_nonneg y
  nlinarith

theorem velocity_real_nonneg (y : ℝ) : 0 ≤ velocity Real.sqrt y := by
  rcases le_or_lt |y| RADIUS with h | h
  · rw [velocity_real_inside h]
    linarith [sq_abs_le_of_inside h]
  · rw [velocity_real_outside h]

theorem velocity_real_le_VMAX (y : ℝ) : velocity Real.sqrt y ≤ VMAX := by
  rw [VMAX_eq]
  rcases le_or_lt |y| RADIUS with h | h
  · rw [velocity_real_inside h]
    nlinarith [sq_nonneg |y|]
  · rw [velocity_real_outside h]
    norm_num

theorem velocity_real_eq_VMAX_iff (y : ℝ) : velocity Real.sqrt y = VMAX ↔ y = 0 := by
  rw [VMAX_eq]
  constructor
  · intro hv
    rcases le_or_lt |y| RADIUS with h | h
    · rw [velocity_real_inside h] at hv
      have h2 : |y| ^ 2 = 0 := by linarith
      exact abs_eq_zero.mp ((pow_eq_zero_iff two_ne_zero).mp h2)
    · rw [velocity_real_outside h] at hv
      norm_num at hv
  · intro hy
    subst hy
    have h : |(0 : ℝ)| ≤ RADIUS := by simpa using (RADIUS_pos : (0 : ℝ) < RADIUS).le
    rw [velocity_real_inside h]
    simp

theorem velocity_real_ne_zero_iff (y : ℝ) : velocity Real.sqrt y ≠ 0 ↔ |y| < RADIUS := by
  constructor
  · intro hv
    by_contra hlt
    rcases (not_lt.mp hlt).eq_or_lt with h | h
    · apply hv
      rw [velocity_real_inside h.ge, ← h, RADIUS_eq]
      norm_num
    · exact hv (velocity_real_outside h)
  · intro hlt
    rw [velocity_real_inside hlt.le]
    rw [RADIUS_eq] at hlt
    have h0 : 0 ≤ |y| := abs_nonneg y
    intro h
    nlinarith

theorem velocity_real_antitone {y1 y2 : ℝ} (h : |y1| ≤ |y2|) :
    velocity Real.sqrt y2 ≤ velocity Real.sqrt y1 := by
  rcases le_or_lt |y2| RADIUS with h2 | h2
  · rw [velocity_real_inside h2, velocity_real_inside (h.trans h2)]
    have h0 : 0 ≤ |y1| := abs_nonneg y1
    nlinarith
  · rw [velocity_real_outside h2]
    exact velocity_real_nonneg y1

theorem velocity_real_neg (y : ℝ) : velocity Real.sqrt (-y) = velocity Real.sqrt y := by
  unfold velocity
  simp only [neg_mul_neg]

theorem velocity_real_eq_max (y : ℝ) :
    velocity Real.sqrt y = max 0 (1 - 400 * y ^ 2) := by
  rcases le_or_lt |y| RADIUS with h | h
  · rw [velocity_real_inside h, sq_abs, max_eq_right]
    have := sq_abs_le_of_inside h
    rw [sq_abs] at this
    linarith
  · rw [velocity_real_outside h, max_eq_left]
    rw [RADIUS_eq] at h
    have h0 : |y| ^ 2 = y ^ 2 := sq_abs y
    nlinarith

theorem velocity_real_continuous : Continuous (velocity Real.sqrt) := by
  have h : velocity Real.sqrt = fun y : ℝ => max 0 (1 - 400 * y ^ 2) :=
    funext velocity_real_eq_max
  rw [h]
  fun_prop

/-- The embedding is executable over `ℚ` with the exact rational square root
`Rat.sqrt`, and there it computes the same values as over `ℝ` with `Real.sqrt`. -/
theorem velocity_rat_cast (y : ℚ) :
    ((velocity Rat.sqrt y : ℚ) : ℝ) = velocity Real.sqrt (y : ℝ) := by
  unfold velocity
  simp only [Rat.sqrt_eq, Real.sqrt_mul_self_eq_abs, RADIUS_eq, VMAX_eq]
  by_cases h : |y| ≤ 1 / 20
  · have hR : |(y : ℝ)| ≤ 1 / 20 := by
      have : ((|y| : ℚ) : ℝ) ≤ ((1 / 20 : ℚ) : ℝ) := Rat.cast_le.mpr h
      simpa using this
    rw [if_pos h, if_pos hR]
    push_cast
    ring
  · have hR : ¬ |(y : ℝ)| ≤ 1 / 20 := by
      intro hc
      apply h
      have : ((|y| : ℚ) : ℝ) ≤ ((1 / 20 : ℚ) : ℝ) := by simpa using hc
      exact Rat.cast_le.mp this
    rw [if_neg h, if_neg hR]
    norm_num

end RealProfile

/-! ## Lemmas on the rounding -/

section RoundingLemmas

theorem floor_le_round_half_even (x : ℝ) : ⌊x⌋ ≤ round_half_even x := by
  unfold round_half_even
  split_ifs <;> omega

theorem round_half_even_le_floor_add_one (x : ℝ) : round_half_even x ≤ ⌊x⌋ + 1 := by
  unfold round_half_even
  split_ifs <;> omega

theorem round_half_even_intCast (n : ℤ) : round_half_even (n : ℝ) = n := by
  unfold round_half_even
  rw [Int.fract_intCast, Int.floor_intCast, if_pos (by norm_num)]

theorem intCast_le_round_half_even {n : ℤ} {x : ℝ} (h : (n : ℝ) ≤ x) :
    n ≤ round_half_even x :=
  (Int.le_floor.mpr h).trans (floor_le_round_half_even x)

theorem round_half_even_le_intCast {n : ℤ} {x : ℝ} (h : x ≤ (n : ℝ)) :
    round_half_even x ≤ n := by
  rcases h.eq_or_lt with h | h
  · rw [h, round_half_even_intCast]
  · have : ⌊x⌋ < n := Int.floor_lt.mpr h
    have := round_half_even_le_floor_add_one x
    omega

theorem round_half_even_mono {x y : ℝ} (h : x ≤ y) :
    round_half_even x ≤ round_half_even y := by
  rcases (Int.floor_mono h).eq_or_lt with hf | hf
  · have hfr : Int.fract x ≤ Int.fract y := by
      rw [← Int.self_sub_floor, ← Int.self_sub_floor, hf]
      linarith
    unfold round_half_even
    rw [hf]
    split_ifs <;> first | omega | (exfalso; linarith)
  · have h1 := round_half_even_le_floor_add_one x
    have h2 := floor_le_round_half_even y
    omega

theorem two_zpow_pos (e : ℤ) : (0 : ℝ) < 2 ^ e :=
  zpow_pos (by norm_num) e

theorem two_zpow_eq_intCast_mul {k e : ℤ} (h : e ≤ k) :
    (2 : ℝ) ^ k = (((2 : ℤ) ^ (k - e).toNat : ℤ) : ℝ) * 2 ^ e := by
  have h2 : (2 : ℝ) ≠ 0 := by norm_num
  push_cast
  rw [← zpow_natCast, Int.toNat_of_nonneg (by omega), ← zpow_add₀ h2]
  congr 1
  ring

theorem binary64_zero : binary64 (0 : ℝ) = 0 := by
  unfold binary64
  rw [zero_div]
  have : round_half_even (0 : ℝ) = 0 := by
    have := round_half_even_intCast (0 : ℤ)
    simpa using this
  rw [this]
  simp

theorem binary64_nonneg {x : ℝ} (h : 0 ≤ x) : 0 ≤ binary64 x := by
  unfold binary64
  apply mul_nonneg _ (two_zpow_pos _).le
  have h0 : ((0 : ℤ) : ℝ) ≤ x / 2 ^ binary64_quantum x := by
    simpa using div_nonneg h (two_zpow_pos _).le
  exact_mod_cast intCast_le_round_half_even h0

theorem binary64_le_two_zpow {x : ℝ} {k : ℤ} (hk : binary64_quantum x ≤ k)
    (h : x ≤ 2 ^ k) : binary64 x ≤ 2 ^ k := by
  unfold binary64
  rw [two_zpow_eq_intCast_mul hk]
  apply mul_le_mul_of_nonneg_right _ (two_zpow_pos _).le
  have : x / 2 ^ binary64_quantum x
      ≤ (((2 : ℤ) ^ (k - binary64_quantum x).toNat : ℤ) : ℝ) := by
    rw [div_le_iff₀ (two_zpow_pos _), ← two_zpow_eq_intCast_mul hk]
    exact h
  exact_mod_cast round_half_even_le_intCast this

theorem two_zpow_le_binary64 {x : ℝ} {k : ℤ} (hk : binary64_quantum x ≤ k)
    (h : 2 ^ k ≤ x) : 2 ^ k ≤ binary64 x := by
  unfold binary64
  rw [two_zpow_eq_intCast_mul hk]
  apply mul_le_mul_of_nonneg_right _ (two_zpow_pos _).le
  have : (((2 : ℤ) ^ (k - binary64_quantum x).toNat : ℤ) : ℝ)
      ≤ x / 2 ^ binary64_quantum x := by
    rw [le_div_iff₀ (two_zpow_pos _), ← two_zpow_eq_intCast_mul hk]
    exact h
  exact_mod_cast intCast_le_round_half_even this

theorem binary64_quantum_mono {x y : ℝ} (hx : 0 < x) (h : x ≤ y) :
    binary64_quantum x ≤ binary64_quantum y := by
  unfold binary64_quantum
  have hxy : |x| ≤ |y| := by
    rw [abs_of_pos hx, abs_of_pos (hx.trans_le h)]; exact h
  have hlog : Int.log 2 |x| ≤ Int.log 2 |y| :=
    Int.log_mono_right (abs_pos.mpr hx.ne.symm) hxy
  omega

/-- Rounding is monotone on the non-negative numbers. -/
theorem binary64_mono {x y : ℝ} (hx : 0 ≤ x) (h : x ≤ y) : binary64 x ≤ binary64 y := by
  rcases hx.eq_or_lt with hx | hx
  · rw [← hx, binary64_zero]
    exact binary64_nonneg (hx ▸ h)
  have hy : 0 < y := hx.trans_le h
  rcases (binary64_quantum_mono hx h).eq_or_lt with he | he
  · unfold binary64
    rw [he]
    apply mul_le_mul_of_nonneg_right _ (two_zpow_pos _).le
    have : x / 2 ^ binary64_quantum y ≤ y / 2 ^ binary64_quantum y :=
      div_le_div_of_nonneg_right h (two_zpow_pos _).le
    exact_mod_cast round_half_even_mono this
  · -- `y` lies in a higher binade: the power of two below `y` separates the roundings
    have hlx : x < 2 ^ (Int.log 2 x + 1) := Int.lt_zpow_succ_log_self (by norm_num) x
    have hly : (2 : ℝ) ^ Int.log 2 y ≤ y := by
      have h2 : ((2 : ℕ) : ℝ) ^ Int.log 2 y ≤ y := Int.zpow_log_le_self (by norm_num) hy
      simpa using h2
    have hqx : binary64_quantum x = max (Int.log 2 x - 52) (-1074) := by
      unfold binary64_quantum; rw [abs_of_pos hx]
    have hqy : binary64_quantum y = max (Int.log 2 y - 52) (-1074) := by
      unfold binary64_quantum; rw [abs_of_pos hy]
    have hk : Int.log 2 x + 1 ≤ Int.log 2 y := by omega
    have hxB : x ≤ 2 ^ Int.log 2 y :=
      hlx.le.trans (zpow_le_zpow_right₀ (by norm_num) hk)
    have h1 : binary64 x ≤ 2 ^ Int.log 2 y := binary64_le_two_zpow (by omega) hxB
    have h2 : 2 ^ Int.log 2 y ≤ binary64 y := two_zpow_le_binary64 (by omega) hly
    exact h1.trans h2

theorem binary64_two_zpow {k : ℤ} (hk : -1074 ≤ k) : binary64 ((2 : ℝ) ^ k) = 2 ^ k := by
  have hq : binary64_quantum ((2 : ℝ) ^ k) ≤ k := by
    unfold binary64_quantum
    rw [abs_of_pos (two_zpow_pos k)]
    have h2 : Int.log 2 (((2 : ℕ) : ℝ) ^ k) = k := Int.log_zpow (by norm_num) k
    simp only [Nat.cast_ofNat] at h2
    rw [h2]
    omega
  exact le_antisymm (binary64_le_two_zpow hq le_rfl) (two_zpow_le_binary64 hq le_rfl)

theorem binary64_one : binary64 (1 : ℝ) = 1 := by
  have h : binary64 ((2 : ℝ) ^ (0 : ℤ)) = 2 ^ (0 : ℤ) := binary64_two_zpow (by norm_num)
  simpa using h

theorem succ_le_round_half_even_of_odd (m : ℤ) (x : ℝ) (hm : m % 2 = 1)
    (h : (m : ℝ) + 1 / 2 ≤ x) : m + 1 ≤ round_half_even x := by
  rcases le_or_lt ((m : ℝ) + 1) x with h1 | h1
  · exact intCast_le_round_half_even (by push_cast; exact h1)
  · have hfl : ⌊x⌋ = m := by
      rw [Int.floor_eq_iff]
      exact ⟨by linarith, h1⟩
    have hfr : 1 / 2 ≤ Int.fract x := by
      rw [← Int.self_sub_floor, hfl]
      linarith
    unfold round_half_even
    rw [hfl, if_neg (not_lt.mpr hfr)]
    split_ifs <;> omega

theorem binary64_near_one {x : ℝ} (h1 : 1 - 1 / 2 ^ 54 ≤ x) (h2 : x ≤ 1) :
    binary64 x = 1 := by
  rcases h2.eq_or_lt with h2 | h2
  · rw [h2, binary64_one]
  have hx : 0 < x := lt_of_lt_of_le (by norm_num) h1
  have hlog : Int.log 2 x = -1 := by
    have ha : (-1 : ℤ) ≤ Int.log 2 x := by
      rw [← Int.zpow_le_iff_le_log (by norm_num) hx]
      norm_num
      linarith
    have hb : Int.log 2 x < 0 := by
      rw [← Int.lt_zpow_iff_log_lt (by norm_num) hx]
      simpa using h2
    omega
  have hq : binary64_quantum x = -53 := by
    unfold binary64_quantum
    rw [abs_of_pos hx, hlog]
    rfl
  have hr : round_half_even (x / 2 ^ (-53 : ℤ)) = 2 ^ 53 := by
    apply le_antisymm
    · apply round_half_even_le_intCast
      rw [div_le_iff₀ (two_zpow_pos _)]
      norm_num
      exact h2.le
    · have := succ_le_round_half_even_of_odd (2 ^ 53 - 1) (x / 2 ^ (-53 : ℤ))
        (by norm_num) (by
          rw [le_div_iff₀ (two_zpow_pos _)]
          norm_num
          linarith)
      simpa using this
  unfold binary64
  rw [hq, hr]
  norm_num

end RoundingLemmas

/-! ## The profile under rounding -/

section RoundedProfile

theorem loop_body_fl_eq {real Thread : Type} [LinearOrderedField real] [DecidableEq Thread]
    (fl sqrt : real → real) (H : Host real Thread) (thread : Thread)
    (position : Int) (st : Profile real Thread) (f : face_t) :
    loop_body_fl fl sqrt H thread position st f
      = F_PROFILE_set st f thread position (velocity_fl fl sqrt (centroid_y H thread f)) := by
  unfold loop_body_fl velocity_fl centroid_y
  simp only
  split <;> rfl

theorem foldl_loop_body_fl {real Thread : Type} [LinearOrderedField real] [DecidableEq Thread]
    (fl sqrt : real → real) (H : Host real Thread) (thread : Thread)
    (position : Int) (l : List face_t) (st : Profile real Thread)
    (t : Thread) (g : face_t) (i : Int) :
    l.foldl (loop_body_fl fl sqrt H thread position) st t g i
      = if t = thread ∧ g ∈ l ∧ i = position then velocity_fl fl sqrt (centroid_y H thread g)
        else st t g i := by
  induction l generalizing st with
  | nil => simp
  | cons a l ih =>
    rw [List.foldl_cons, ih, loop_body_fl_eq]
    unfold F_PROFILE_set
    by_cases ht : t = thread <;> by_cases hi : i = position <;> by_cases hg : g ∈ l <;>
      by_cases ha : g = a <;> simp [ht, hi, hg, ha]

/-- Closed form of the storage after one call of the rounded program. -/
theorem parabolic_velocity_fl_apply {real Thread : Type} [LinearOrderedField real]
    [DecidableEq Thread] (fl sqrt : real → real) (H : Host real Thread)
    (thread : Thread) (position : Int) (st : Profile real Thread)
    (t : Thread) (g : face_t) (i : Int) :
    parabolic_velocity_fl fl sqrt H thread position st t g i
      = if t = thread ∧ g ∈ H.faces thread ∧ i = position
        then velocity_fl fl sqrt (centroid_y H thread g) else st t g i :=
  foldl_loop_body_fl fl sqrt H thread position (H.faces thread) st t g i

/-- Without rounding the rounded value function is `velocity`. -/
theorem velocity_fl_id {real : Type} [LinearOrderedField real] (sqrt : real → real) (y : real) :
    velocity_fl id sqrt y = velocity sqrt y := rfl

/-- Without rounding the rounded program is `parabolic_velocity`. -/
theorem parabolic_velocity_fl_id {real Thread : Type} [LinearOrderedField real]
    [DecidableEq Thread] (sqrt : real → real) (H : Host real Thread)
    (thread : Thread) (position : Int) (st : Profile real Thread) :
    parabolic_velocity_fl id sqrt H thread position st
      = parabolic_velocity sqrt H thread position st := rfl

/-- For a rounding that is monotone on the non-negative numbers and keeps `0`
and `1`, the assigned value stays in `[0, 1]`. -/
theorem velocity_fl_bounds (fl : ℝ → ℝ)
    (hmono : ∀ a b : ℝ, 0 ≤ a → a ≤ b → fl a ≤ fl b) (h0 : fl 0 = 0) (h1 : fl 1 = 1)
    (hR : 0 < fl (fl RADIUS * fl RADIUS)) (y : ℝ) :
    0 ≤ velocity_fl fl Real.sqrt y ∧ velocity_fl fl Real.sqrt y ≤ 1 := by
  have hnn : ∀ a : ℝ, 0 ≤ a → 0 ≤ fl a := fun a ha => h0 ▸ hmono 0 a le_rfl ha
  have hle : ∀ a : ℝ, 0 ≤ a → a ≤ 1 → fl a ≤ 1 := fun a ha ha1 => h1 ▸ hmono a 1 ha ha1
  have hone : fl (1.0 : ℝ) = 1 := by norm_num [h1]
  have hzero : fl (0.0 : ℝ) = 0 := by norm_num [h0]
  have hV : fl (VMAX : ℝ) = 1 := by rw [VMAX_eq, h1]
  unfold velocity_fl
  simp only
  have hr : 0 ≤ fl (Real.sqrt (fl (y * y))) := hnn _ (Real.sqrt_nonneg _)
  split
  · rename_i hin
    have hab : fl (fl (Real.sqrt (fl (y * y))) * fl (Real.sqrt (fl (y * y))))
        ≤ fl (fl RADIUS * fl RADIUS) :=
      hmono _ _ (mul_nonneg hr hr) (mul_le_mul hin hin hr (hr.trans hin))
    have ha : 0 ≤ fl (fl (Real.sqrt (fl (y * y))) * fl (Real.sqrt (fl (y * y)))) :=
      hnn _ (mul_nonneg hr hr)
    have hq0 : 0 ≤ fl (fl (Real.sqrt (fl (y * y))) * fl (Real.sqrt (fl (y * y))))
        / fl (fl RADIUS * fl RADIUS) := div_nonneg ha hR.le
    have hq1 : fl (fl (Real.sqrt (fl (y * y))) * fl (Real.sqrt (fl (y * y))))
        / fl (fl RADIUS * fl RADIUS) ≤ 1 := (div_le_one hR).mpr hab
    have hc0 := hnn _ hq0
    have hc1 := hle _ hq0 hq1
    rw [hV, hone, one_mul]
    have hd0 := hnn _ (sub_nonneg.mpr hc1)
    have hd1 := hle _ (sub_nonneg.mpr hc1) (sub_le_self 1 hc0)
    exact ⟨hnn _ hd0, hle _ hd0 hd1⟩
  · rw [hzero]
    exact ⟨le_rfl, zero_le_one⟩

/-- On the centerline the rounded program assigns `1`. -/
theorem velocity_fl_zero (fl : ℝ → ℝ)
    (hmono : ∀ a b : ℝ, 0 ≤ a → a ≤ b → fl a ≤ fl b) (h0 : fl 0 = 0) (h1 : fl 1 = 1) :
    velocity_fl fl Real.sqrt 0 = 1 := by
  have hRn : 0 ≤ fl (RADIUS : ℝ) := h0 ▸ hmono 0 RADIUS le_rfl RADIUS_pos.le
  have hone : fl (1.0 : ℝ) = 1 := by norm_num [h1]
  unfold velocity_fl
  simp only [mul_zero, h0, Real.sqrt_zero, zero_div, if_pos hRn, hone, sub_zero, h1,
    VMAX_eq, mul_one]

theorem binary64_RADIUS_ge : (2 : ℝ) ^ (-5 : ℤ) ≤ binary64 (RADIUS : ℝ) := by
  have h : binary64 ((2 : ℝ) ^ (-5 : ℤ)) ≤ binary64 (RADIUS : ℝ) :=
    binary64_mono (two_zpow_pos _).le (by rw [RADIUS_eq]; norm_num)
  rwa [binary64_two_zpow (by norm_num)] at h

theorem binary64_RADIUS_sq_ge :
    (2 : ℝ) ^ (-10 : ℤ) ≤ binary64 (binary64 (RADIUS : ℝ) * binary64 (RADIUS : ℝ)) := by
  have hR := binary64_RADIUS_ge
  have h5 : (0 : ℝ) ≤ 2 ^ (-5 : ℤ) := (two_zpow_pos _).le
  have hsq : (2 : ℝ) ^ (-10 : ℤ) ≤ binary64 (RADIUS : ℝ) * binary64 (RADIUS : ℝ) := by
    have := mul_le_mul hR hR h5 (h5.trans hR)
    rw [← zpow_add₀ (by norm_num : (2 : ℝ) ≠ 0)] at this
    exact this
  have h : binary64 ((2 : ℝ) ^ (-10 : ℤ))
      ≤ binary64 (binary64 (RADIUS : ℝ) * binary64 (RADIUS : ℝ)) :=
    binary64_mono (two_zpow_pos _).le hsq
  rwa [binary64_two_zpow (by norm_num)] at h

theorem binary64_RADIUS_sq_pos :
    (0 : ℝ) < binary64 (binary64 (RADIUS : ℝ) * binary64 (RADIUS : ℝ)) :=
  lt_of_lt_of_le (two_zpow_pos _) binary64_RADIUS_sq_ge

/-- In binary64 the centroid `y = 2^-40` already receives the centerline value:
`(r*r)/(RADIUS*RADIUS)` is below `2^-70`, and `1.0` minus it rounds to `1.0`. -/
theorem velocity_fl_binary64_off_center :
    velocity_fl binary64 Real.sqrt (1 / 2 ^ 40 : ℝ) = 1 := by
  have hyy : (1 / 2 ^ 40 : ℝ) * (1 / 2 ^ 40) = 2 ^ (-80 : ℤ) := by norm_num
  have hsq : Real.sqrt ((2 : ℝ) ^ (-80 : ℤ)) = 2 ^ (-40 : ℤ) := by
    have h : (2 : ℝ) ^ (-80 : ℤ) = (2 ^ (-40 : ℤ)) * (2 ^ (-40 : ℤ)) := by
      rw [← zpow_add₀ (by norm_num : (2 : ℝ) ≠ 0)]; norm_num
    rw [h, Real.sqrt_mul_self (two_zpow_pos _).le]
  have hrr : (2 : ℝ) ^ (-40 : ℤ) * 2 ^ (-40 : ℤ) = 2 ^ (-80 : ℤ) := by
    rw [← zpow_add₀ (by norm_num : (2 : ℝ) ≠ 0)]; norm_num
  have hin : (2 : ℝ) ^ (-40 : ℤ) ≤ binary64 (RADIUS : ℝ) :=
    le_trans (zpow_le_zpow_right₀ (by norm_num) (by norm_num)) binary64_RADIUS_ge
  have hb := binary64_RADIUS_sq_ge
  have hbpos : (0 : ℝ) < binary64 (binary64 (RADIUS : ℝ) * binary64 (RADIUS : ℝ)) :=
    lt_of_lt_of_le (two_zpow_pos _) hb
  have hq0 : 0 ≤ (2 : ℝ) ^ (-80 : ℤ)
      / binary64 (binary64 (RADIUS : ℝ) * binary64 (RADIUS : ℝ)) :=
    div_nonneg (two_zpow_pos _).le hbpos.le
  have hq1 : (2 : ℝ) ^ (-80 : ℤ)
      / binary64 (binary64 (RADIUS : ℝ) * binary64 (RADIUS : ℝ)) ≤ 2 ^ (-70 : ℤ) := by
    rw [div_le_iff₀ hbpos]
    calc (2 : ℝ) ^ (-80 : ℤ) = 2 ^ (-70 : ℤ) * 2 ^ (-10 : ℤ) := by
          rw [← zpow_add₀ (by norm_num : (2 : ℝ) ≠ 0)]; norm_num
      _ ≤ 2 ^ (-70 : ℤ) * binary64 (binary64 (RADIUS : ℝ) * binary64 (RADIUS : ℝ)) :=
          mul_le_mul_of_nonneg_left hb (two_zpow_pos _).le
  have hc0 := binary64_nonneg hq0
  have hc1 : binary64 ((2 : ℝ) ^ (-80 : ℤ)
      / binary64 (binary64 (RADIUS : ℝ) * binary64 (RADIUS : ℝ))) ≤ 2 ^ (-70 : ℤ) := by
    have h := binary64_mono hq0 hq1
    rwa [binary64_two_zpow (by norm_num)] at h
  have hone : binary64 (1.0 : ℝ) = 1 := by norm_num [binary64_one]
  have hd : binary64 (1 - binary64 ((2 : ℝ) ^ (-80 : ℤ)
      / binary64 (binary64 (RADIUS : ℝ) * binary64 (RADIUS : ℝ)))) = 1 := by
    apply binary64_near_one
    · have h70 : (2 : ℝ) ^ (-70 : ℤ) ≤ 1 / 2 ^ 54 := by norm_num
      linarith
    · linarith
  unfold velocity_fl
  simp only [hyy, binary64_two_zpow (by norm_num : (-1074 : ℤ) ≤ -80), hsq,
    binary64_two_zpow (by norm_num : (-1074 : ℤ) ≤ -40), if_pos hin, hrr, hone, hd,
    VMAX_eq, binary64_one, mul_one]

end RoundedProfile

/-! ## Sample meshes -/

section Samples

theorem sampleHost2D_y0 : centroid_y (sampleHost2D : Host ℝ Unit) () 0 = 0.025 := by
  simp [centroid_y, sampleHost2D]

theorem sampleHost2D_y1 : centroid_y (sampleHost2D : Host ℝ Unit) () 1 = 0.06 := by
  simp [centroid_y, sampleHost2D]

theorem sampleHost2D_mem0 : (0 : face_t) ∈ (sampleHost2D : Host ℝ Unit).faces () := by
  simp [sampleHost2D]

theorem sampleHost2D_mem1 : (1 : face_t) ∈ (sampleHost2D : Host ℝ Unit).faces () := by
  simp [sampleHost2D]

theorem sampleHost2D_y2 : centroid_y (sampleHost2D : Host ℝ Unit) () 2 = -0.05 := by
  simp [centroid_y, sampleHost2D]

theorem sampleHost2D_mem2 : (2 : face_t) ∈ (sampleHost2D : Host ℝ Unit).faces () := by
  simp [sampleHost2D]

theorem sampleHost3D_mem0 : (0 : face_t) ∈ (sampleHost3D : Host ℝ Unit).faces () := by
  simp [sampleHost3D]

theorem sampleHost3D_y0 : centroid_y (sampleHost3D : Host ℝ Unit) () 0 = 0 := by
  simp [centroid_y, sampleHost3D]

theorem sampleHostCenter_y0 :
    centroid_y (sampleHostCenter : Host ℝ Unit) () 0 = 1 / 2 ^ 40 := by
  simp [centroid_y, sampleHostCenter]

theorem sampleHostCenter_y1 : centroid_y (sampleHostCenter : Host ℝ Unit) () 1 = 0 := by
  simp [centroid_y, sampleHostCenter]

theorem sampleHostCenter_mem0 : (0 : face_t) ∈ (sampleHostCenter : Host ℝ Unit).faces () := by
  simp [sampleHostCenter]

theorem sampleHostCenter_mem1 : (1 : face_t) ∈ (sampleHostCenter : Host ℝ Unit).faces () := by
  simp [sampleHostCenter]

end Samples

/-! ## Properties of `parabolic_velocity` -/

section Claims

/-- C1: for every face `f` of the thread, after `parabolic_velocity` the slot of
`f` holds `Vmax * (1 - (r/R)^2)` when `r ≤ R` and `0` when `r > R`, where `r` is
the radius computed for the centroid of `f`, `Vmax = 1.0` and `R = 0.05`, in
exact real arithmetic; the form `(r*r)/(R*R)` of the code equals the form
`(r/R)^2` of the specification.  A centroid with `y = 0.025` gets `0.75` and one
with `y = 0.06` gets `0`. -/
theorem parabolic_velocity_formula {Thread : Type} [DecidableEq Thread]
    (H : Host ℝ Thread) (thread : Thread)
    (position : Int) (st : Profile ℝ Thread) (f : face_t)
    (hf : f ∈ H.faces thread) :
    (radius Real.sqrt H thread f ≤ 0.05 →
      parabolic_velocity Real.sqrt H thread position st thread f position
        = 1.0 * (1 - (radius Real.sqrt H thread f / 0.05) ^ 2)) ∧
    (0.05 < radius Real.sqrt H thread f →
      parabolic_velocity Real.sqrt H thread position st thread f position = 0) ∧
    parabolic_velocity Real.sqrt H thread position st thread f position
      = spec_profile VMAX RADIUS (radius Real.sqrt H thread f) ∧
    (VMAX : ℝ) = 1.0 ∧ (RADIUS : ℝ) = 0.05 ∧
    (∀ r : ℝ, VMAX * (1.0 - (r * r) / (RADIUS * RADIUS)) = VMAX * (1 - (r / RADIUS) ^ 2)) ∧
    (centroid_y H thread f = 0.025 →
      parabolic_velocity Real.sqrt H thread position st thread f position = 0.75) ∧
    (centroid_y H thread f = 0.06 →
      parabolic_velocity Real.sqrt H thread position st thread f position = 0) := by
  have hv : parabolic_velocity Real.sqrt H thread position st thread f position
      = velocity Real.sqrt (centroid_y H thread f) := by
    rw [parabolic_velocity_apply, if_pos ⟨rfl, hf, rfl⟩]
  have hr : radius Real.sqrt H thread f = |centroid_y H thread f| := by
    unfold radius centroid_y
    exact Real.sqrt_mul_self_eq_abs _
  have hform : ∀ r : ℝ,
      (VMAX : ℝ) * (1.0 - (r * r) / (RADIUS * RADIUS)) = VMAX * (1 - (r / RADIUS) ^ 2) := by
    intro r
    rw [div_pow, sq, sq]
    norm_num
  have hspec : velocity Real.sqrt (centroid_y H thread f)
      = spec_profile VMAX RADIUS (radius Real.sqrt H thread f) := by
    unfold velocity spec_profile radius centroid_y
    simp only
    split
    · exact hform _
    · norm_num
  refine ⟨?_, ?_, ?_, ?_, ?_, hform, ?_, ?_⟩
  · intro h
    rw [hv, hspec, spec_profile, RADIUS_eq, VMAX_eq, if_pos (by norm_num at h ⊢; exact h)]
    norm_num
  · intro h
    rw [hv, hspec, spec_profile, RADIUS_eq, if_neg (by norm_num at h ⊢; exact h)]
  · rw [hv, hspec]
  · rw [VMAX_eq]; norm_num
  · rw [RADIUS_eq]; norm_num
  · intro hy
    have hin : |centroid_y H thread f| ≤ RADIUS := by
      rw [hy, RADIUS_eq]; norm_num [abs_le]
    rw [hv, velocity_real_inside hin, hy]
    norm_num [abs_of_nonneg]
  · intro hy
    have hout : RADIUS < |centroid_y H thread f| := by
      rw [hy, RADIUS_eq]; norm_num [lt_abs]
    rw [hv, velocity_real_outside hout]

/-- Witness for C1 on the two-dimensional sample mesh: the face whose centroid has
`y = 0.025` gets `0.75`, whatever the slot held before. -/
theorem parabolic_velocity_formula_witness :
    (0 : face_t) ∈ (sampleHost2D : Host ℝ Unit).faces () ∧
    centroid_y (sampleHost2D : Host ℝ Unit) () 0 = 0.025 ∧
    parabolic_velocity Real.sqrt sampleHost2D () 0 (fun _ _ _ => 7) () 0 0 = 0.75 :=
  ⟨sampleHost2D_mem0, sampleHost2D_y0,
    (parabolic_velocity_formula sampleHost2D () 0 (fun _ _ _ => 7) 0
      sampleHost2D_mem0).2.2.2.2.2.2.1 sampleHost2D_y0⟩

/-- C2, counterexample: on the three-dimensional sample mesh the centroid
`(0, 0, 1)` lies at distance `1` from the centerline, yet the radius computed
by the code is `0`, and the face receives the centerline value `VMAX` where the
specification formula with the true distance gives `0`. -/
theorem radius_ne_distance_3D :
    (sampleHost3D : Host ℝ Unit).ND_ND = 3 ∧
    radius Real.sqrt (sampleHost3D : Host ℝ Unit) () 0 = 0 ∧
    distance_from_centerline Real.sqrt ((sampleHost3D : Host ℝ Unit).F_CENTROID 0 ()) = 1 ∧
    radius Real.sqrt (sampleHost3D : Host ℝ Unit) () 0
      ≠ distance_from_centerline Real.sqrt ((sampleHost3D : Host ℝ Unit).F_CENTROID 0 ()) ∧
    parabolic_velocity Real.sqrt sampleHost3D () 0 (fun _ _ _ => 0) () 0 0 = 1 ∧
    spec_profile (VMAX : ℝ) RADIUS
      (distance_from_centerline Real.sqrt ((sampleHost3D : Host ℝ Unit).F_CENTROID 0 ())) = 0 := by
  have hr : radius Real.sqrt (sampleHost3D : Host ℝ Unit) () 0 = 0 := by
    simp [radius, sampleHost3D]
  have hd : distance_from_centerline Real.sqrt
      ((sampleHost3D : Host ℝ Unit).F_CENTROID 0 ()) = 1 := by
    simp [distance_from_centerline, sampleHost3D, Fin.sum_univ_three]
  refine ⟨rfl, hr, hd, ?_, ?_, ?_⟩
  · rw [hr, hd]; norm_num
  · rw [parabolic_velocity_apply, if_pos ⟨rfl, sampleHost3D_mem0, rfl⟩, sampleHost3D_y0,
      (velocity_real_eq_VMAX_iff 0).mpr rfl, VMAX_eq]
  · rw [hd, spec_profile, RADIUS_eq, if_neg (by norm_num)]

/-- C2, amended: for every face and every dimension the radius used by
`parabolic_velocity` is `|x[1]|`; this is the Euclidean distance of the centroid
from the centerline when `ND_ND = 2`, and when `ND_ND = 3` exactly for the
centroids with `x[2] = 0`. -/
theorem radius_eq_abs_y {Thread : Type} (H : Host ℝ Thread) (thread : Thread) (f : face_t) :
    radius Real.sqrt H thread f = |centroid_y H thread f| ∧
    (H.ND_ND = 2 →
      radius Real.sqrt H thread f
        = distance_from_centerline Real.sqrt (H.F_CENTROID f thread)) ∧
    (∀ h3 : H.ND_ND = 3,
      (radius Real.sqrt H thread f
          = distance_from_centerline Real.sqrt (H.F_CENTROID f thread)
        ↔ H.F_CENTROID f thread ⟨2, by omega⟩ = 0)) := by
  obtain ⟨nd, hnd, faces, cen⟩ := H
  have hr : ∀ y : ℝ, Real.sqrt (y * y) = |y| := Real.sqrt_mul_self_eq_abs
  refine ⟨hr _, ?_, ?_⟩
  · intro h2
    simp only at h2
    subst h2
    simp [radius, distance_from_centerline, Fin.sum_univ_two, sq]
  · intro h3
    simp only at h3
    subst h3
    simp only [radius, distance_from_centerline, Fin.sum_univ_three]
    simp only [Fin.val_zero, Fin.val_one, Fin.val_two, if_true, one_ne_zero, if_false,
      OfNat.ofNat_ne_zero, zero_add]
    rw [hr]
    change (|cen f thread 1| = Real.sqrt (cen f thread 1 ^ 2 + cen f thread 2 ^ 2)
      ↔ cen f thread 2 = 0)
    constructor
    · intro h
      have h0 : 0 ≤ cen f thread 1 ^ 2 + cen f thread 2 ^ 2 := by positivity
      have h1 : |cen f thread 1| ^ 2 = cen f thread 1 ^ 2 + cen f thread 2 ^ 2 := by
        rw [h, Real.sq_sqrt h0]
      rw [sq_abs] at h1
      have h2 : cen f thread 2 ^ 2 = 0 := by linarith
      exact (pow_eq_zero_iff two_ne_zero).mp h2
    · intro h
      rw [h]
      simp [Real.sqrt_sq_eq_abs]

/-- Witness for the amended C2 on the two-dimensional sample mesh: there the radius
of the face `0` is the Euclidean distance of its centroid from the centerline. -/
theorem radius_eq_abs_y_witness :
    (sampleHost2D : Host ℝ Unit).ND_ND = 2 ∧
    radius Real.sqrt (sampleHost2D : Host ℝ Unit) () 0
      = distance_from_centerline Real.sqrt ((sampleHost2D : Host ℝ Unit).F_CENTROID 0 ()) :=
  ⟨rfl, (radius_eq_abs_y (sampleHost2D : Host ℝ Unit) () 0).2.1 rfl⟩

/-- C3, counterexample: in double precision the value `VMAX` is attained off the
centerline.  On the sample mesh the face `0` has the centroid `(0, 2^-40)`, so
`y ≠ 0`; the code computes `r = 2^-40`, a quotient `(r*r)/(RADIUS*RADIUS)` below
`2^-70`, and `1.0` minus that quotient rounds to `1.0`, so the face is assigned
`VMAX`. -/
theorem parabolic_velocity_fl_VMAX_off_centerline :
    (0 : face_t) ∈ (sampleHostCenter : Host ℝ Unit).faces () ∧
    centroid_y (sampleHostCenter : Host ℝ Unit) () 0 = 1 / 2 ^ 40 ∧
    centroid_y (sampleHostCenter : Host ℝ Unit) () 0 ≠ 0 ∧
    parabolic_velocity_fl binary64 Real.sqrt sampleHostCenter () 0 (fun _ _ _ => 0) () 0 0
      = VMAX ∧
    ¬ (parabolic_velocity_fl binary64 Real.sqrt sampleHostCenter () 0 (fun _ _ _ => 0) () 0 0
        = VMAX ↔ centroid_y (sampleHostCenter : Host ℝ Unit) () 0 = 0) := by
  have hy : centroid_y (sampleHostCenter : Host ℝ Unit) () 0 = 1 / 2 ^ 40 :=
    sampleHostCenter_y0
  have hne : centroid_y (sampleHostCenter : Host ℝ Unit) () 0 ≠ 0 := by
    rw [hy]; norm_num
  have hv : parabolic_velocity_fl binary64 Real.sqrt sampleHostCenter () 0
      (fun _ _ _ => 0) () 0 0 = VMAX := by
    rw [parabolic_velocity_fl_apply, if_pos ⟨rfl, sampleHostCenter_mem0, rfl⟩, hy,
      velocity_fl_binary64_off_center, VMAX_eq]
  exact ⟨sampleHostCenter_mem0, hy, hne, hv, fun h => hne (h.mp hv)⟩

/-- C3, amended: for every face of the thread the value assigned lies in the
closed interval `[0, VMAX]`, and it is `VMAX` when the y coordinate of the
centroid is `0`.  This holds for the program with the rounding `fl` of the
scalar type made explicit, for every rounding that is monotone on the
non-negative numbers, keeps `0` and `1`, and does not round `RADIUS*RADIUS` to
zero (binary64 is one, the identity another).  In exact real arithmetic `VMAX`
is attained only for `y = 0`. -/
theorem parabolic_velocity_fl_bounds {Thread : Type} [DecidableEq Thread] (fl : ℝ → ℝ)
    (hmono : ∀ a b : ℝ, 0 ≤ a → a ≤ b → fl a ≤ fl b) (h0 : fl 0 = 0) (h1 : fl 1 = 1)
    (hR : 0 < fl (fl RADIUS * fl RADIUS))
    (H : Host ℝ Thread) (thread : Thread) (position : Int) (st : Profile ℝ Thread)
    (f : face_t) (hf : f ∈ H.faces thread) :
    (0 ≤ parabolic_velocity_fl fl Real.sqrt H thread position st thread f position ∧
      parabolic_velocity_fl fl Real.sqrt H thread position st thread f position ≤ VMAX ∧
      (centroid_y H thread f = 0 →
        parabolic_velocity_fl fl Real.sqrt H thread position st thread f position = VMAX)) ∧
    (0 ≤ parabolic_velocity Real.sqrt H thread position st thread f position ∧
      parabolic_velocity Real.sqrt H thread position st thread f position ≤ VMAX ∧
      (parabolic_velocity Real.sqrt H thread position st thread f position = VMAX
        ↔ centroid_y H thread f = 0)) := by
  constructor
  · rw [parabolic_velocity_fl_apply, if_pos ⟨rfl, hf, rfl⟩, VMAX_eq]
    refine ⟨(velocity_fl_bounds fl hmono h0 h1 hR _).1,
      (velocity_fl_bounds fl hmono h0 h1 hR _).2, ?_⟩
    intro hy
    rw [hy, velocity_fl_zero fl hmono h0 h1]
  · rw [parabolic_velocity_apply, if_pos ⟨rfl, hf, rfl⟩]
    exact ⟨velocity_real_nonneg _, velocity_real_le_VMAX _, velocity_real_eq_VMAX_iff _⟩

/-- Witness for the amended C3 with the binary64 rounding: on the sample mesh the
face `1` has its centroid on the centerline and is assigned `VMAX`. -/
theorem parabolic_velocity_fl_bounds_witness :
    (1 : face_t) ∈ (sampleHostCenter : Host ℝ Unit).faces () ∧
    centroid_y (sampleHostCenter : Host ℝ Unit) () 1 = 0 ∧
    parabolic_velocity_fl binary64 Real.sqrt sampleHostCenter () 2 (fun _ _ _ => -3) () 1 2
      = VMAX :=
  ⟨sampleHostCenter_mem1, sampleHostCenter_y1,
    (parabolic_velocity_fl_bounds binary64 (fun _ _ ha hab => binary64_mono ha hab)
      binary64_zero binary64_one binary64_RADIUS_sq_pos
      sampleHostCenter () 2 (fun _ _ _ => -3) 1 sampleHostCenter_mem1).1.2.2
      sampleHostCenter_y1⟩

/-- C4: one assignment per mesh face, and nothing else: for every thread, after
the call every face of the thread has its slot at the given position set to the
value computed from its own centroid, and no slot of another thread, of a face
outside the thread, or of another position index is changed.  The call is the
replay of one assignment per visited face, each to the slot of that face at
the given position. -/
theorem parabolic_velocity_frame {real Thread : Type} [LinearOrderedField real]
    [DecidableEq Thread] (sqrt : real → real) (H : Host real Thread)
    (thread : Thread) (position : Int) (st : Profile real Thread) :
    (∀ f, f ∈ H.faces thread →
      parabolic_velocity sqrt H thread position st thread f position
        = velocity sqrt (centroid_y H thread f)) ∧
    (∀ f, f ∈ H.faces thread →
      parabolic_velocity sqrt H thread position st thread f position
        = loop_body sqrt H thread position st f thread f position) ∧
    (∀ t g i, t ≠ thread ∨ g ∉ H.faces thread ∨ i ≠ position →
      parabolic_velocity sqrt H thread position st t g i = st t g i) ∧
    parabolic_velocity sqrt H thread position st
      = replay st (assignments sqrt H thread position) ∧
    (assignments sqrt H thread position).length = (H.faces thread).length ∧
    (∀ w, w ∈ assignments sqrt H thread position →
      w.1 = thread ∧ w.2.1 ∈ H.faces thread ∧ w.2.2.1 = position) ∧
    (∀ g, (assignments sqrt H thread position).countP (fun w => w.2.1 = g)
      = (H.faces thread).count g) ∧
    ((H.faces thread).Nodup → ∀ f, f ∈ H.faces thread →
      (assignments sqrt H thread position).countP (fun w => w.2.1 = f) = 1) := by
  refine ⟨?_, ?_, ?_, ?_, ?_, ?_, ?_, ?_⟩
  · intro f hf
    rw [parabolic_velocity_apply, if_pos ⟨rfl, hf, rfl⟩]
  · intro f hf
    rw [parabolic_velocity_apply, if_pos ⟨rfl, hf, rfl⟩, loop_body_eq]
    simp [F_PROFILE_set]
  · intro t g i h
    rw [parabolic_velocity_apply, if_neg]
    rintro ⟨h1, h2, h3⟩
    rcases h with h | h | h
    · exact h h1
    · exact h h2
    · exact h h3
  · unfold parabolic_velocity replay assignments
    rw [List.foldl_map]
    congr 1
    funext s f
    exact loop_body_eq sqrt H thread position s f
  · simp [assignments]
  · intro w hw
    simp only [assignments, List.mem_map] at hw
    obtain ⟨f, hf, rfl⟩ := hw
    exact ⟨rfl, hf, rfl⟩
  · intro g
    exact countP_assignments sqrt H thread position g
  · intro hnd f hf
    rw [countP_assignments]
    exact List.count_eq_one_of_mem hnd hf

/-- Witness for C4 on the two-dimensional sample mesh: the slot of the face `3`,
which is not a face of the thread, keeps the value it had. -/
theorem parabolic_velocity_frame_witness :
    (3 : face_t) ∉ (sampleHost2D : Host ℝ Unit).faces () ∧
    parabolic_velocity Real.sqrt sampleHost2D () 0 (fun _ _ _ => 7) () 3 0 = 7 :=
  ⟨by simp [sampleHost2D],
    (parabolic_velocity_frame Real.sqrt sampleHost2D () 0 (fun _ _ _ => 7)).2.2.1 () 3 0
      (Or.inr (Or.inl (by simp [sampleHost2D])))⟩

/-- C5: the radius `sqrt(y*y)` is `|y|` for every real `y`, so the branch
condition `r ≤ RADIUS` is the band `-RADIUS ≤ y ≤ RADIUS` and the value assigned
inside the band is `VMAX * (1 - y^2 / RADIUS^2)`; the embedding with `sqrt`, the
one with `|y|` and the one with `y^2` are equal, as value functions and as
programs. -/
theorem velocity_sqrt_eq_abs {Thread : Type} [DecidableEq Thread]
    (H : Host ℝ Thread) (thread : Thread) (position : Int) (st : Profile ℝ Thread)
    (y : ℝ) :
    Real.sqrt (y * y) = |y| ∧
    (Real.sqrt (y * y) ≤ RADIUS ↔ -RADIUS ≤ y ∧ y ≤ RADIUS) ∧
    (-RADIUS ≤ y ∧ y ≤ RADIUS →
      velocity Real.sqrt y = VMAX * (1 - y ^ 2 / RADIUS ^ 2)) ∧
    velocity Real.sqrt = (velocity_abs : ℝ → ℝ) ∧
    velocity Real.sqrt = (velocity_sq : ℝ → ℝ) ∧
    parabolic_velocity Real.sqrt H thread position st
      = parabolic_velocity_of velocity_abs H thread position st ∧
    parabolic_velocity Real.sqrt H thread position st
      = parabolic_velocity_of velocity_sq H thread position st := by
  have habs : velocity Real.sqrt = (velocity_abs : ℝ → ℝ) := by
    funext z
    unfold velocity velocity_abs
    simp only [Real.sqrt_mul_self_eq_abs]
  have hsq : velocity Real.sqrt = (velocity_sq : ℝ → ℝ) := by
    funext z
    rw [velocity_real, velocity_sq]
    simp only [abs_le]
  have hprog : ∀ v : ℝ → ℝ, velocity Real.sqrt = v →
      parabolic_velocity Real.sqrt H thread position st
        = parabolic_velocity_of v H thread position st := by
    intro v hv
    unfold parabolic_velocity parabolic_velocity_of
    congr 1
    funext s f
    rw [loop_body_eq, hv]
  refine ⟨Real.sqrt_mul_self_eq_abs y, ?_, ?_, habs, hsq, hprog _ habs, hprog _ hsq⟩
  · rw [Real.sqrt_mul_self_eq_abs, abs_le]
  · intro h
    rw [velocity_real, if_pos (abs_le.mpr h)]

/-- Witness for C5 at `y = -0.05`, the lower end of the band. -/
theorem velocity_sqrt_eq_abs_witness :
    (-RADIUS ≤ (-0.05 : ℝ) ∧ (-0.05 : ℝ) ≤ RADIUS) ∧
    velocity Real.sqrt (-0.05 : ℝ) = VMAX * (1 - (-0.05 : ℝ) ^ 2 / RADIUS ^ 2) :=
  ⟨by rw [RADIUS_eq]; norm_num,
    (velocity_sqrt_eq_abs (sampleHost2D : Host ℝ Unit) () 0 (fun _ _ _ => 0) (-0.05)).2.2.1
      (by rw [RADIUS_eq]; norm_num)⟩

/-- C6: the profile is continuous at the pipe wall: for a face whose centroid has
`|y| = RADIUS` the inside branch is taken and yields `0`, the value the outside
branch assigns for `|y| > RADIUS`; the assigned value is non-zero only strictly
inside the pipe, and the assigned value is a continuous function of `y`. -/
theorem parabolic_velocity_wall {Thread : Type} [DecidableEq Thread]
    (H : Host ℝ Thread) (thread : Thread) (position : Int) (st : Profile ℝ Thread)
    (f : face_t) (hf : f ∈ H.faces thread) :
    (|centroid_y H thread f| = RADIUS →
      radius Real.sqrt H thread f ≤ RADIUS ∧
      VMAX * (1.0 - (radius Real.sqrt H thread f * radius Real.sqrt H thread f)
        / (RADIUS * RADIUS)) = (0 : ℝ) ∧
      parabolic_velocity Real.sqrt H thread position st thread f position = 0) ∧
    (RADIUS < |centroid_y H thread f| →
      ¬ radius Real.sqrt H thread f ≤ RADIUS ∧
      parabolic_velocity Real.sqrt H thread position st thread f position = 0) ∧
    (parabolic_velocity Real.sqrt H thread position st thread f position ≠ 0
      ↔ |centroid_y H thread f| < RADIUS) ∧
    Continuous (velocity Real.sqrt) := by
  have hv : parabolic_velocity Real.sqrt H thread position st thread f position
      = velocity Real.sqrt (centroid_y H thread f) := by
    rw [parabolic_velocity_apply, if_pos ⟨rfl, hf, rfl⟩]
  have hr : radius Real.sqrt H thread f = |centroid_y H thread f| := by
    unfold radius centroid_y
    exact Real.sqrt_mul_self_eq_abs _
  refine ⟨?_, ?_, ?_, velocity_real_continuous⟩
  · intro h
    refine ⟨by rw [hr, h], ?_, ?_⟩
    · rw [hr, h, VMAX_eq, RADIUS_eq]; norm_num
    · rw [hv, velocity_real_inside h.le, h, RADIUS_eq]; norm_num
  · intro h
    exact ⟨by rw [hr]; exact not_le.mpr h, by rw [hv, velocity_real_outside h]⟩
  · rw [hv]
    exact velocity_real_ne_zero_iff _

/-- Witness for C6 on the two-dimensional sample mesh: the face `2` has its
centroid on the wall, `|y| = RADIUS`, and gets `0`. -/
theorem parabolic_velocity_wall_witness :
    (2 : face_t) ∈ (sampleHost2D : Host ℝ Unit).faces () ∧
    |centroid_y (sampleHost2D : Host ℝ Unit) () 2| = RADIUS ∧
    radius Real.sqrt (sampleHost2D : Host ℝ Unit) () 2 ≤ RADIUS ∧
    parabolic_velocity Real.sqrt sampleHost2D () 1 (fun _ _ _ => 7) () 2 1 = 0 :=
  have hw : |centroid_y (sampleHost2D : Host ℝ Unit) () 2| = RADIUS := by
    rw [sampleHost2D_y2, RADIUS_eq]; norm_num [abs_of_nonneg]
  have h := (parabolic_velocity_wall sampleHost2D () 1 (fun _ _ _ => 7) 2
    sampleHost2D_mem2).1 hw
  ⟨sampleHost2D_mem2, hw, h.1, h.2.2⟩

/-- C7: the value is non-increasing in the distance from the centerline, and
symmetric about it: for two faces (of any two runs) with `|y1| ≤ |y2|` the value
assigned for `y1` is at least the value assigned for `y2`, and for `y1 = -y2`
the two values are equal. -/
theorem parabolic_velocity_antitone_even {Thread1 Thread2 : Type}
    [DecidableEq Thread1] [DecidableEq Thread2]
    (H1 : Host ℝ Thread1) (thread1 : Thread1) (position1 : Int)
    (st1 : Profile ℝ Thread1) (f1 : face_t) (hf1 : f1 ∈ H1.faces thread1)
    (H2 : Host ℝ Thread2) (thread2 : Thread2) (position2 : Int)
    (st2 : Profile ℝ Thread2) (f2 : face_t) (hf2 : f2 ∈ H2.faces thread2) :
    (|centroid_y H1 thread1 f1| ≤ |centroid_y H2 thread2 f2| →
      parabolic_velocity Real.sqrt H2 thread2 position2 st2 thread2 f2 position2
        ≤ parabolic_velocity Real.sqrt H1 thread1 position1 st1 thread1 f1 position1) ∧
    (centroid_y H1 thread1 f1 = -centroid_y H2 thread2 f2 →
      parabolic_velocity Real.sqrt H1 thread1 position1 st1 thread1 f1 position1
        = parabolic_velocity Real.sqrt H2 thread2 position2 st2 thread2 f2 position2) := by
  rw [parabolic_velocity_apply, if_pos ⟨rfl, hf2, rfl⟩,
    parabolic_velocity_apply, if_pos ⟨rfl, hf1, rfl⟩]
  refine ⟨velocity_real_antitone, ?_⟩
  intro h
  rw [h, velocity_real_neg]

/-- Witness for C7 on the two-dimensional sample mesh: the face `0` (`y = 0.025`)
is nearer to the centerline than the face `1` (`y = 0.06`) and gets at least
its value. -/
theorem parabolic_velocity_antitone_even_witness :
    |centroid_y (sampleHost2D : Host ℝ Unit) () 0|
      ≤ |centroid_y (sampleHost2D : Host ℝ Unit) () 1| ∧
    parabolic_velocity Real.sqrt sampleHost2D () 0 (fun _ _ _ => 7) () 1 0
      ≤ parabolic_velocity Real.sqrt sampleHost2D () 0 (fun _ _ _ => 7) () 0 0 :=
  have hle : |centroid_y (sampleHost2D : Host ℝ Unit) () 0|
      ≤ |centroid_y (sampleHost2D : Host ℝ Unit) () 1| := by
    rw [sampleHost2D_y0, sampleHost2D_y1]; norm_num [abs_of_nonneg]
  ⟨hle, (parabolic_velocity_antitone_even
    sampleHost2D () 0 (fun _ _ _ => 7) 0 sampleHost2D_mem0
    sampleHost2D () 0 (fun _ _ _ => 7) 1 sampleHost2D_mem1).1 hle⟩

/-- C8: the value assigned to a face depends only on the y coordinate `x[1]` of
its centroid: in any two runs (two meshes of any dimensions, threads, position
indices and initial profile storages) two faces whose centroids have the same
`x[1]` get the same value. -/
theorem parabolic_velocity_depends_on_y {real Thread1 Thread2 : Type}
    [LinearOrderedField real] [DecidableEq Thread1] [DecidableEq Thread2]
    (sqrt : real → real)
    (H1 : Host real Thread1) (thread1 : Thread1) (position1 : Int)
    (st1 : Profile real Thread1) (f1 : face_t) (hf1 : f1 ∈ H1.faces thread1)
    (H2 : Host real Thread2) (thread2 : Thread2) (position2 : Int)
    (st2 : Profile real Thread2) (f2 : face_t) (hf2 : f2 ∈ H2.faces thread2)
    (hy : H1.F_CENTROID f1 thread1 ⟨1, H1.ND_ND_gt⟩
      = H2.F_CENTROID f2 thread2 ⟨1, H2.ND_ND_gt⟩) :
    parabolic_velocity sqrt H1 thread1 position1 st1 thread1 f1 position1
      = parabolic_velocity sqrt H2 thread2 position2 st2 thread2 f2 position2 := by
  rw [parabolic_velocity_apply, if_pos ⟨rfl, hf1, rfl⟩,
    parabolic_velocity_apply, if_pos ⟨rfl, hf2, rfl⟩]
  unfold centroid_y
  simp only
  rw [hy]

/-- Witness for C8: the face `0` of the three-dimensional sample mesh, centroid
`(0, 0, 1)`, and the face `0` of a two-dimensional mesh with centroid `(5, 0)`
share `x[1] = 0` and get the same value, for different position indices and
initial storages. -/
theorem parabolic_velocity_depends_on_y_witness :
    parabolic_velocity Real.sqrt (sampleHost3D : Host ℝ Unit) () 0 (fun _ _ _ => 7) () 0 0
      = parabolic_velocity Real.sqrt
          (⟨2, by decide, fun _ => [4, 0], fun _ _ => ![5, 0]⟩ : Host ℝ Bool)
          true 1 (fun _ _ _ => -2) true 0 1 :=
  parabolic_velocity_depends_on_y Real.sqrt
    sampleHost3D () 0 (fun _ _ _ => 7) 0 sampleHost3D_mem0
    (⟨2, by decide, fun _ => [4, 0], fun _ _ => ![5, 0]⟩ : Host ℝ Bool)
    true 1 (fun _ _ _ => -2) 0 (by simp) (by simp [sampleHost3D])

/-- C9: `parabolic_velocity` is idempotent on the profile storage: running it
twice with the same thread and position gives the same storage as running it
once. -/
theorem parabolic_velocity_idempotent {real Thread : Type} [LinearOrderedField real]
    [DecidableEq Thread] (sqrt : real → real) (H : Host real Thread)
    (thread : Thread) (position : Int) (st : Profile real Thread) :
    parabolic_velocity sqrt H thread position
        (parabolic_velocity sqrt H thread position st)
      = parabolic_velocity sqrt H thread position st := by
  funext t g i
  rw [parabolic_velocity_apply]
  split
  · rw [parabolic_velocity_apply, if_pos (by assumption)]
  · rfl

end Claims

end BasicUdf
